import Mathlib

/-!
Shallow embedding of libavfilter/vf_adm.c (the per-frame ADM video quality
metric).  IEEE single/double arithmetic is idealised as exact rational
arithmetic.  The machine specific primitives with no exact rational
counterpart (the SSE reciprocal estimate behind `rcp`, `powf(x, 1.0/3.0)`,
`log10` and `pow` inside `dwt_quant_step`) and the numeric tables of the
header adm.h, which is not part of the sources (filter taps
`dwt2_db2_coeffs_lo/hi`, `ADM_BORDER_FACTOR`, `VIEW_DIST`,
`REF_DISPLAY_HEIGHT`, the `dwt_model_params` entries and the basis function
amplitudes), are abstracted into an explicit parameter record `AdmParams`.
Every operation below follows the loop bodies of the C source.
-/

/-- A float image: a total assignment of a rational sample to every pair of
integer coordinates (row, column).  The C code addresses rows through a byte
stride (`x[i * px_stride + j]`); the stride bookkeeping is memory layout and
is abstracted away, an image is its indexing function. -/
def Img : Type := ℤ → ℤ → ℚ

/-- The all zero image. -/
def zeroImg : Img := fun _ _ => 0

/-- The all one image. -/
def oneImg : Img := fun _ _ => 1

/-- Parameters of the embedding.  Modelled from the spec: adm.h is missing
from the sources and `_mm_rcp_ss`, `powf`, `log10`, `pow` are hardware or
transcendental primitives, so the corresponding values are carried
abstractly:
* `taps_lo`, `taps_hi`: the two precomputed filter tap tables
  `dwt2_db2_coeffs_lo` and `dwt2_db2_coeffs_hi` (small, length matching);
* `rcpEst`: the initial estimate produced by `_mm_rcp_ss`;
* `cbrt`: `powf (x, 1.0/3.0)`;
* `logTen`, `powTen`: `log10 x` and `pow (10.0, x)`;
* `piQ`: `M_PI`;
* `cos_1deg_sq`: the constant `cos (1 deg) * cos (1 deg)` of `adm_decouple`;
* `view_dist`, `ref_display_height`: `VIEW_DIST` and `REF_DISPLAY_HEIGHT`;
* `par_a`, `par_k`, `par_f0`, `par_g`: the fields `a`, `k`, `f0`, `g[]` of
  `dwt_7_9_YCbCr_threshold[0]`;
* `ampl`: `dwt_7_9_basis_function_amplitudes`;
* `border`: `ADM_BORDER_FACTOR`. -/
structure AdmParams where
  taps_lo : List ℚ
  taps_hi : List ℚ
  rcpEst : ℚ → ℚ
  cbrt : ℚ → ℚ
  logTen : ℚ → ℚ
  powTen : ℚ → ℚ
  piQ : ℚ
  cos_1deg_sq : ℚ
  view_dist : ℚ
  ref_display_height : ℚ
  par_a : ℚ
  par_k : ℚ
  par_f0 : ℚ
  par_g : ℕ → ℚ
  ampl : ℕ → ℕ → ℚ
  border : ℚ

/-- One DWT band group, the embedding of `adm_dwt_band_t` (four float
pointers).  The fields `w` and `h` record the logical band dimensions, which
in the C code travel alongside the struct as separate arguments. -/
structure adm_dwt_band_t where
  w : ℕ
  h : ℕ
  band_a : Img
  band_h : Img
  band_v : Img
  band_d : Img

/-- Whole sample mirror reflection of an index into `[0, dim)`, the inlined
boundary rule of `adm_dwt2` and `adm_cm_thresh`:
`idx = FFABS(idx); if (idx >= dim) idx = 2 * dim - idx - 1;`
computed in int arithmetic. -/
def reflect (dim : ℕ) (idx : ℤ) : ℤ :=
  let a : ℤ := |idx|
  if (dim : ℤ) ≤ a then 2 * (dim : ℤ) - a - 1 else a

/-- Truncation of a rational toward zero, the semantics of a C double to int
conversion: ceiling for negative values, floor otherwise. -/
def truncQ (q : ℚ) : ℤ := if q < 0 then ⌈q⌉ else ⌊q⌋

/-- The constant `eps = 1e-30` of `adm_decouple`. -/
def adm_eps : ℚ := 1 / 10 ^ 30

/-- `rcp`: the reciprocal estimate refined by one Newton-Raphson step,
`xi + xi * (1.0f - x * xi)` where `xi` is the hardware estimate. -/
def rcp (P : AdmParams) (x : ℚ) : ℚ :=
  let xi := P.rcpEst x
  xi + xi * (1 - x * xi)

/-- `DIVS(n, d) = n * rcp(d)`. -/
def divs (P : AdmParams) (n d : ℚ) : ℚ := n * rcp P d

/-- The gain clip `k < 0 ? 0 : (k > 1 ? 1 : k)` of `adm_decouple`. -/
def clip01 (k : ℚ) : ℚ := if k < 0 then 0 else if k > 1 then 1 else k

/-- `dwt_quant_step`: quantization step of the CSF model, formula (9).
The body is the C source with the adm.h constants and the transcendental
functions taken from the parameter record; note that it depends only on the
decomposition level `lambda` and the orientation `theta`, never on any frame
dimension. -/
def dwt_quant_step (P : AdmParams) (lambda theta : ℕ) : ℚ :=
  let r := P.view_dist * P.ref_display_height * P.piQ / 180
  let temp := P.logTen ((2 : ℚ) ^ (lambda + 1) * P.par_f0 * P.par_g theta / r)
  2 * P.par_a * P.powTen (P.par_k * temp * temp) / P.ampl lambda theta

/-- The angular test of `adm_decouple`:
`(ot_dp >= 0.0) && (ot_dp * ot_dp >= cos_1deg_sq * o_mag_sq * t_mag_sq)`. -/
def angle_cond (P : AdmParams) (ref main : adm_dwt_band_t) (i j : ℤ) : Prop :=
  let oh := ref.band_h i j
  let ov := ref.band_v i j
  let th := main.band_h i j
  let tv := main.band_v i j
  let ot_dp := oh * th + ov * tv
  let o_mag_sq := oh * oh + ov * ov
  let t_mag_sq := th * th + tv * tv
  0 ≤ ot_dp ∧ P.cos_1deg_sq * o_mag_sq * t_mag_sq ≤ ot_dp * ot_dp

instance (P : AdmParams) (ref main : adm_dwt_band_t) (i j : ℤ) :
    Decidable (angle_cond P ref main i j) :=
  inferInstanceAs (Decidable (_ ∧ _))

/-- The per pixel body of `adm_decouple`: the triple
`(tmph, tmpv, tmpd)` finally stored into the restored band `r`, after the
gain computation, the clip and the angular override. -/
def decouple_vals (P : AdmParams) (ref main : adm_dwt_band_t) (i j : ℤ) :
    ℚ × ℚ × ℚ :=
  let oh := ref.band_h i j
  let ov := ref.band_v i j
  let od := ref.band_d i j
  let th := main.band_h i j
  let tv := main.band_v i j
  let td := main.band_d i j
  let kh := clip01 (divs P th (oh + adm_eps))
  let kv := clip01 (divs P tv (ov + adm_eps))
  let kd := clip01 (divs P td (od + adm_eps))
  if angle_cond P ref main i j then (th, tv, td)
  else (kh * oh, kv * ov, kd * od)

/-- The restored band `r` written by `adm_decouple` (its `band_a` slot is
never written by the C code and is modelled as zero). -/
def adm_decouple_r (P : AdmParams) (ref main : adm_dwt_band_t) (w h : ℕ) :
    adm_dwt_band_t :=
  { w := w, h := h,
    band_a := zeroImg,
    band_h := fun i j => (decouple_vals P ref main i j).1,
    band_v := fun i j => (decouple_vals P ref main i j).2.1,
    band_d := fun i j => (decouple_vals P ref main i j).2.2 }

/-- The impairment band `a` written by `adm_decouple`:
`a = distorted - tmp` per orientation. -/
def adm_decouple_a (P : AdmParams) (ref main : adm_dwt_band_t) (w h : ℕ) :
    adm_dwt_band_t :=
  { w := w, h := h,
    band_a := zeroImg,
    band_h := fun i j => main.band_h i j - (decouple_vals P ref main i j).1,
    band_v := fun i j => main.band_v i j - (decouple_vals P ref main i j).2.1,
    band_d := fun i j => main.band_d i j - (decouple_vals P ref main i j).2.2 }

/-- `adm_csf`: reciprocal CSF weighting of the three detail bands.
`rfactor = {1/factor1, 1/factor1, 1/factor2}` with
`factor_t = dwt_quant_step(&dwt_7_9_YCbCr_threshold[0], scale, t)`.
The C function receives `orig_h` but its body never reads it; the argument
is kept to mirror the source signature.  `band_a` is not written by the C
code and is modelled as zero. -/
def adm_csf (P : AdmParams) (src : adm_dwt_band_t) (orig_h : ℕ) (scale : ℕ) :
    adm_dwt_band_t :=
  let factor1 := dwt_quant_step P scale 1
  let factor2 := dwt_quant_step P scale 2
  { w := src.w, h := src.h,
    band_a := zeroImg,
    band_h := fun i j => 1 / factor1 * src.band_h i j,
    band_v := fun i j => 1 / factor1 * src.band_v i j,
    band_d := fun i j => 1 / factor2 * src.band_d i j }

/-- Orientation selector of `adm_cm_thresh`:
`angles[3] = {band_h, band_v, band_d}`. -/
def band_angle (src : adm_dwt_band_t) (theta : ℕ) : Img :=
  if theta = 0 then src.band_h else if theta = 1 then src.band_v else src.band_d

/-- The 3x3 filter coefficient of `adm_cm_thresh`: `1/15` at the center,
`1/30` elsewhere. -/
def cm_filt_coeff (fi fj : ℕ) : ℚ :=
  if fi = 1 ∧ fj = 1 then 1 / 15 else 1 / 30

/-- `adm_cm_thresh`: the contrast masking threshold image, the sum over the
three orientations of the 3x3 filter applied to the absolute value of the
band, with mirror reflected indices. -/
def adm_cm_thresh (src : adm_dwt_band_t) (w h : ℕ) : Img :=
  fun i j =>
    ∑ theta in Finset.range 3, ∑ fi in Finset.range 3, ∑ fj in Finset.range 3,
      cm_filt_coeff fi fj *
        |band_angle src theta (reflect h (i - 1 + fi)) (reflect w (j - 1 + fj))|

/-- `adm_cm`: threshold subtraction and clipping,
`x = fabsf(x) - thr; x = x < 0 ? 0 : x` per orientation. -/
def adm_cm (src : adm_dwt_band_t) (thresh : Img) (w h : ℕ) : adm_dwt_band_t :=
  { w := w, h := h,
    band_a := zeroImg,
    band_h := fun i j => max 0 (|src.band_h i j| - thresh i j),
    band_v := fun i j => max 0 (|src.band_v i j| - thresh i j),
    band_d := fun i j => max 0 (|src.band_d i j| - thresh i j) }

/-- `int left = w * border_factor - 0.5` (and the analogous `top`): a C
double to int truncation. -/
def region_lo (dim : ℕ) (b : ℚ) : ℤ := truncQ ((dim : ℚ) * b - 1 / 2)

/-- `right = w - left` (and the analogous `bottom`). -/
def region_hi (dim : ℕ) (b : ℚ) : ℤ := (dim : ℤ) - region_lo dim b

/-- The inner double sum of `adm_sum_cube`: cubes of absolute values over
rows `[top, bottom)` and columns `[left, right)`. -/
def cube_sum (x : Img) (w h : ℕ) (b : ℚ) : ℚ :=
  ∑ i in Finset.Ico (region_lo h b) (region_hi h b),
    ∑ j in Finset.Ico (region_lo w b) (region_hi w b), |x i j| ^ 3

/-- `adm_sum_cube`: Lp pooling with p = 3 plus the additive stabilizer
`powf((bottom - top) * (right - left) / 32.0, 1.0/3.0)`. -/
def adm_sum_cube (P : AdmParams) (x : Img) (w h : ℕ) (b : ℚ) : ℚ :=
  P.cbrt (cube_sum x w h b) +
    P.cbrt ((((region_hi h b - region_lo h b) *
      (region_hi w b - region_lo w b) : ℤ) : ℚ) / 32)

/-- The argument of the stabilizer cube root of `adm_sum_cube`:
`(bottom - top) * (right - left) / 32.0`. -/
def stabQ (w h : ℕ) (b : ℚ) : ℚ :=
  (((region_hi h b - region_lo h b) * (region_hi w b - region_lo w b) : ℤ) : ℚ) / 32

/-- `adm_dwt2`: one level of the separable two band decomposition.  The
vertical pass builds the intermediate low/high rows, the two horizontal
passes produce `(band_a, band_v)` from the low intermediate and
`(band_h, band_d)` from the high intermediate.  All out of range source
indices go through `reflect`.  The result has the half resolution shape
`((h+1)/2) x ((w+1)/2)`. -/
def adm_dwt2 (P : AdmParams) (src : Img) (w h : ℕ) : adm_dwt_band_t :=
  let filt_w := P.taps_lo.length
  let vert_lo : ℤ → ℤ → ℚ := fun i jj =>
    ∑ fi in Finset.range filt_w,
      P.taps_lo.getD fi 0 * src (reflect h (2 * i - 1 + fi)) jj
  let vert_hi : ℤ → ℤ → ℚ := fun i jj =>
    ∑ fi in Finset.range filt_w,
      P.taps_hi.getD fi 0 * src (reflect h (2 * i - 1 + fi)) jj
  { w := (w + 1) / 2, h := (h + 1) / 2,
    band_a := fun i j =>
      ∑ fj in Finset.range filt_w,
        P.taps_lo.getD fj 0 * vert_lo i (reflect w (2 * j - 1 + fj)),
    band_v := fun i j =>
      ∑ fj in Finset.range filt_w,
        P.taps_hi.getD fj 0 * vert_lo i (reflect w (2 * j - 1 + fj)),
    band_h := fun i j =>
      ∑ fj in Finset.range filt_w,
        P.taps_lo.getD fj 0 * vert_hi i (reflect w (2 * j - 1 + fj)),
    band_d := fun i j =>
      ∑ fj in Finset.range filt_w,
        P.taps_hi.getD fj 0 * vert_hi i (reflect w (2 * j - 1 + fj)) }

/-- The result of one iteration of the scale loop of `compute_adm2`:
the per scale accumulators and the two approximation bands carried to the
next scale. -/
structure ScaleOut where
  num_scale : ℚ
  den_scale : ℚ
  ref_a : Img
  main_a : Img

/-- One iteration of the scale loop of `compute_adm2` at input size
`w x h`: DWT of both planes, halving, decoupling, three CSF weightings,
masking threshold, masking, and the six `adm_sum_cube` pools. -/
def adm_scale_step (P : AdmParams) (refImg mainImg : Img) (w h orig_h scale : ℕ) :
    ScaleOut :=
  let ref_dwt2 := adm_dwt2 P refImg w h
  let main_dwt2 := adm_dwt2 P mainImg w h
  let w2 := (w + 1) / 2
  let h2 := (h + 1) / 2
  let decouple_r := adm_decouple_r P ref_dwt2 main_dwt2 w2 h2
  let decouple_a := adm_decouple_a P ref_dwt2 main_dwt2 w2 h2
  let csf_o := adm_csf P ref_dwt2 orig_h scale
  let csf_r := adm_csf P decouple_r orig_h scale
  let csf_a := adm_csf P decouple_a orig_h scale
  let mta := adm_cm_thresh csf_a w2 h2
  let cm_r := adm_cm csf_r mta w2 h2
  { num_scale := adm_sum_cube P cm_r.band_h w2 h2 P.border +
      adm_sum_cube P cm_r.band_v w2 h2 P.border +
      adm_sum_cube P cm_r.band_d w2 h2 P.border,
    den_scale := adm_sum_cube P csf_o.band_h w2 h2 P.border +
      adm_sum_cube P csf_o.band_v w2 h2 P.border +
      adm_sum_cube P csf_o.band_d w2 h2 P.border,
    ref_a := ref_dwt2.band_a,
    main_a := main_dwt2.band_a }

/-- The outputs of `compute_adm2`. -/
structure AdmResult where
  score : ℚ
  score_num : ℚ
  score_den : ℚ
  scores : List ℚ

/-- `compute_adm2`: four cascaded scales (the approximation bands become the
next working planes, dimensions halve via `(n+1)/2`), accumulation of the
per scale numerators and denominators, the resolution scaled noise floor
`1e-2 * (w * h) / (1920.0 * 1080.0)` zeroing a strictly smaller sum, and the
final ratio with the `den == 0` fallback to `1.0`. -/
def compute_adm2 (P : AdmParams) (refImg mainImg : Img) (w h : ℕ) : AdmResult :=
  let numden_limit : ℚ := 1 / 100 * ((w * h : ℕ) : ℚ) / (1920 * 1080)
  let orig_h := h
  let s0 := adm_scale_step P refImg mainImg w h orig_h 0
  let w1 := (w + 1) / 2
  let h1 := (h + 1) / 2
  let s1 := adm_scale_step P s0.ref_a s0.main_a w1 h1 orig_h 1
  let w2 := (w1 + 1) / 2
  let h2 := (h1 + 1) / 2
  let s2 := adm_scale_step P s1.ref_a s1.main_a w2 h2 orig_h 2
  let w3 := (w2 + 1) / 2
  let h3 := (h2 + 1) / 2
  let s3 := adm_scale_step P s2.ref_a s2.main_a w3 h3 orig_h 3
  let num := s0.num_scale + s1.num_scale + s2.num_scale + s3.num_scale
  let den := s0.den_scale + s1.den_scale + s2.den_scale + s3.den_scale
  let num2 := if num < numden_limit then 0 else num
  let den2 := if den < numden_limit then 0 else den
  { score := if den2 = 0 then 1 else num2 / den2,
    score_num := num2,
    score_den := den2,
    scores := [s0.num_scale, s0.den_scale, s1.num_scale, s1.den_scale,
               s2.num_scale, s2.den_scale, s3.num_scale, s3.den_scale] }

/-- Fuel driven floor cube root on naturals: recursion on `n / 8`, used to
build a concrete executable instantiation of the abstract `cbrt`
parameter. -/
def natCbrtAux : ℕ → ℕ → ℕ
  | 0, _ => 0
  | fuel + 1, n =>
    if n < 8 then (if n = 0 then 0 else 1)
    else
      let r := 2 * natCbrtAux fuel (n / 8)
      if (r + 1) * (r + 1) * (r + 1) ≤ n then r + 1 else r

/-- Floor cube root on naturals (64 fuel steps cover every input below
`8 ^ 64`). -/
def natCbrt (n : ℕ) : ℕ := natCbrtAux 64 n

/-- A concrete executable rational cube root (exact on perfect cubes,
floor like otherwise), instantiating the abstract `cbrt` parameter in
witnesses and counterexamples. -/
def ratCbrt (q : ℚ) : ℚ :=
  if q < 0 then 0
  else (natCbrt (q.num.toNat * q.den * q.den) : ℚ) / (q.den : ℚ)

/-- A concrete parameter record used by witnesses and counterexamples.
Modelled from the spec: plausible stand-ins for the missing adm.h values
(four biorthogonal style taps, border factor 1/10 as a fixed fractional
border, `cos_1deg_sq` just below one) and executable stand-ins for the
transcendental primitives. -/
def paramsA : AdmParams :=
  { taps_lo := [1/4, 1/2, 1/2, 1/4],
    taps_hi := [-1/4, 1/2, -1/2, 1/4],
    rcpEst := fun x => if x = 0 then 0 else 1 / x,
    cbrt := ratCbrt,
    logTen := fun x => x,
    powTen := fun x => x + 1,
    piQ := 355 / 113,
    cos_1deg_sq := 9994 / 10000,
    view_dist := 3,
    ref_display_height := 1080,
    par_a := 1 / 2,
    par_k := 1 / 4,
    par_f0 := 4,
    par_g := fun _ => 1,
    ampl := fun _ _ => 1,
    border := 1 / 10 }

/-- A second concrete parameter record for witnesses, identical to
`paramsA` except that the cube root stand-in is an affine function for
which the growth side conditions `0 <= cbrt x` and `x <= 1000000 * cbrt x`
(both true of the real cube root on the range reached by the pooling
stabilizers) are immediate. -/
def paramsC : AdmParams :=
  { paramsA with cbrt := fun x => if x < 0 then 0 else x + 1 }

/-- A concrete constant band used by counterexamples. -/
def bandOne : adm_dwt_band_t :=
  { w := 4, h := 4, band_a := oneImg, band_h := oneImg,
    band_v := oneImg, band_d := oneImg }

/-- The DWT band group with all four planes zero. -/
def zeroBand (w h : ℕ) : adm_dwt_band_t :=
  { w := w, h := h, band_a := zeroImg, band_h := zeroImg,
    band_v := zeroImg, band_d := zeroImg }

/-- Value of one per scale accumulator of `compute_adm2` on two all zero
planes of size `w x h`: three pooled zero bands at the halved size. -/
def zero_pool (P : AdmParams) (w h : ℕ) : ℚ :=
  3 * adm_sum_cube P zeroImg ((w + 1) / 2) ((h + 1) / 2) P.border

/-- Sum of the four per scale accumulators of `compute_adm2` on two all
zero planes of size `w x h`. -/
def zero_den_sum (P : AdmParams) (w h : ℕ) : ℚ :=
  zero_pool P w h + zero_pool P ((w + 1) / 2) ((h + 1) / 2) +
    zero_pool P (((w + 1) / 2 + 1) / 2) (((h + 1) / 2 + 1) / 2) +
    zero_pool P ((((w + 1) / 2 + 1) / 2 + 1) / 2) ((((h + 1) / 2 + 1) / 2 + 1) / 2)

/-- The sample conversion generated by `offset_fn(uint8_t, 8)`: each output
float is the plain numeric cast of the input sample; no offset is applied by
the loop body. -/
def offset_8bit (refSamples mainSamples : ℤ → ℤ → ℕ) : Img × Img :=
  (fun i j => (refSamples i j : ℚ), fun i j => (mainSamples i j : ℚ))

/-- The sample conversion generated by `offset_fn(uint16_t, 10)`: identical
loop body at a wider sample type. -/
def offset_10bit (refSamples mainSamples : ℤ → ℤ → ℕ) : Img × Img :=
  (fun i j => (refSamples i j : ℚ), fun i j => (mainSamples i j : ℚ))

/-! ### Helper lemmas -/

lemma zeroBand_w (w h : ℕ) : (zeroBand w h).w = w := rfl

lemma zeroBand_h (w h : ℕ) : (zeroBand w h).h = h := rfl

lemma zeroBand_ba (w h : ℕ) : (zeroBand w h).band_a = zeroImg := rfl

lemma zeroBand_bh (w h : ℕ) : (zeroBand w h).band_h = zeroImg := rfl

lemma zeroBand_bv (w h : ℕ) : (zeroBand w h).band_v = zeroImg := rfl

lemma zeroBand_bd (w h : ℕ) : (zeroBand w h).band_d = zeroImg := rfl

lemma cube_sum_zero (w h : ℕ) (b : ℚ) : cube_sum zeroImg w h b = 0 := by
  simp [cube_sum, zeroImg]

lemma adm_sum_cube_zero (P : AdmParams) (w h : ℕ) (b : ℚ) :
    adm_sum_cube P zeroImg w h b =
      P.cbrt 0 + P.cbrt ((((region_hi h b - region_lo h b) *
        (region_hi w b - region_lo w b) : ℤ) : ℚ) / 32) := by
  rw [adm_sum_cube, cube_sum_zero]

lemma dwt2_zero (P : AdmParams) (w h : ℕ) :
    adm_dwt2 P zeroImg w h = zeroBand ((w + 1) / 2) ((h + 1) / 2) := by
  unfold adm_dwt2 zeroBand
  rw [adm_dwt_band_t.mk.injEq]
  refine ⟨rfl, rfl, ?_, ?_, ?_, ?_⟩ <;> funext i j <;> simp [zeroImg]

lemma angle_cond_zero (P : AdmParams) (w h : ℕ) (i j : ℤ) :
    angle_cond P (zeroBand w h) (zeroBand w h) i j := by
  simp [angle_cond, zeroBand, zeroImg]

lemma decouple_vals_zero (P : AdmParams) (w h : ℕ) (i j : ℤ) :
    decouple_vals P (zeroBand w h) (zeroBand w h) i j = (0, 0, 0) := by
  unfold decouple_vals
  rw [if_pos (angle_cond_zero P w h i j)]
  rw [zeroBand_bh, zeroBand_bv, zeroBand_bd]
  rfl

lemma adm_decouple_r_zero (P : AdmParams) (w h w2 h2 : ℕ) :
    adm_decouple_r P (zeroBand w h) (zeroBand w h) w2 h2 = zeroBand w2 h2 := by
  show _ = adm_dwt_band_t.mk w2 h2 zeroImg zeroImg zeroImg zeroImg
  unfold adm_decouple_r
  rw [adm_dwt_band_t.mk.injEq]
  refine ⟨rfl, rfl, rfl, ?_, ?_, ?_⟩ <;> funext i j <;>
    rw [decouple_vals_zero] <;> rfl

lemma adm_decouple_a_zero (P : AdmParams) (w h w2 h2 : ℕ) :
    adm_decouple_a P (zeroBand w h) (zeroBand w h) w2 h2 = zeroBand w2 h2 := by
  show _ = adm_dwt_band_t.mk w2 h2 zeroImg zeroImg zeroImg zeroImg
  unfold adm_decouple_a
  rw [adm_dwt_band_t.mk.injEq]
  refine ⟨rfl, rfl, rfl, ?_, ?_, ?_⟩ <;> funext i j <;>
    rw [decouple_vals_zero] <;>
    simp [zeroBand_bh, zeroBand_bv, zeroBand_bd, zeroImg]

lemma adm_csf_zero (P : AdmParams) (w h oh s : ℕ) :
    adm_csf P (zeroBand w h) oh s = zeroBand w h := by
  show _ = adm_dwt_band_t.mk w h zeroImg zeroImg zeroImg zeroImg
  unfold adm_csf
  rw [adm_dwt_band_t.mk.injEq]
  exact ⟨rfl, rfl, rfl,
    funext fun i => funext fun j => by rw [zeroBand_bh]; simp [zeroImg],
    funext fun i => funext fun j => by rw [zeroBand_bv]; simp [zeroImg],
    funext fun i => funext fun j => by rw [zeroBand_bd]; simp [zeroImg]⟩

lemma band_angle_zero (w h : ℕ) (theta : ℕ) :
    band_angle (zeroBand w h) theta = zeroImg := by
  unfold band_angle
  split
  · exact zeroBand_bh w h
  · split
    · exact zeroBand_bv w h
    · exact zeroBand_bd w h

lemma adm_cm_thresh_zero (w h w2 h2 : ℕ) :
    adm_cm_thresh (zeroBand w h) w2 h2 = zeroImg := by
  funext i j
  simp [adm_cm_thresh, band_angle_zero, zeroImg]

lemma adm_cm_zero (w h w2 h2 : ℕ) :
    adm_cm (zeroBand w h) zeroImg w2 h2 = zeroBand w2 h2 := by
  show _ = adm_dwt_band_t.mk w2 h2 zeroImg zeroImg zeroImg zeroImg
  unfold adm_cm
  rw [adm_dwt_band_t.mk.injEq]
  exact ⟨rfl, rfl, rfl,
    funext fun i => funext fun j => by rw [zeroBand_bh]; simp [zeroImg],
    funext fun i => funext fun j => by rw [zeroBand_bv]; simp [zeroImg],
    funext fun i => funext fun j => by rw [zeroBand_bd]; simp [zeroImg]⟩

lemma adm_scale_step_zero (P : AdmParams) (w h oh s : ℕ) :
    adm_scale_step P zeroImg zeroImg w h oh s =
      ⟨zero_pool P w h, zero_pool P w h, zeroImg, zeroImg⟩ := by
  simp only [adm_scale_step, dwt2_zero, adm_decouple_r_zero, adm_decouple_a_zero,
    adm_csf_zero, adm_cm_thresh_zero, adm_cm_zero]
  rw [ScaleOut.mk.injEq]
  refine ⟨?_, ?_, zeroBand_ba _ _, zeroBand_ba _ _⟩ <;>
    rw [zeroBand_bh, zeroBand_bv, zeroBand_bd] <;>
    rw [zero_pool] <;> ring

lemma floor_ratio_one (L d : ℚ) :
    (if (if d < L then (0 : ℚ) else d) = 0 then (1 : ℚ)
     else (if d < L then (0 : ℚ) else d) / (if d < L then (0 : ℚ) else d)) = 1 := by
  by_cases hz : (if d < L then (0 : ℚ) else d) = 0
  · rw [if_pos hz]
  · rw [if_neg hz, div_self hz]

lemma compute_adm2_zero (P : AdmParams) (w h : ℕ) :
    compute_adm2 P zeroImg zeroImg w h =
      { score := 1,
        score_num := if zero_den_sum P w h <
            1 / 100 * ((w * h : ℕ) : ℚ) / (1920 * 1080) then 0
          else zero_den_sum P w h,
        score_den := if zero_den_sum P w h <
            1 / 100 * ((w * h : ℕ) : ℚ) / (1920 * 1080) then 0
          else zero_den_sum P w h,
        scores := [zero_pool P w h, zero_pool P w h,
          zero_pool P ((w + 1) / 2) ((h + 1) / 2),
          zero_pool P ((w + 1) / 2) ((h + 1) / 2),
          zero_pool P (((w + 1) / 2 + 1) / 2) (((h + 1) / 2 + 1) / 2),
          zero_pool P (((w + 1) / 2 + 1) / 2) (((h + 1) / 2 + 1) / 2),
          zero_pool P ((((w + 1) / 2 + 1) / 2 + 1) / 2) ((((h + 1) / 2 + 1) / 2 + 1) / 2),
          zero_pool P ((((w + 1) / 2 + 1) / 2 + 1) / 2) ((((h + 1) / 2 + 1) / 2 + 1) / 2)] } := by
  simp only [compute_adm2, adm_scale_step_zero]
  rw [AdmResult.mk.injEq]
  refine ⟨floor_ratio_one _ _, ?_, ?_, rfl⟩ <;> simp only [zero_den_sum]

lemma compute_adm2_reduction (P : AdmParams) (r m : Img) (w h : ℕ) :
    ((compute_adm2 P r m w h).score_num =
      if (compute_adm2 P r m w h).scores.getD 0 0 +
          (compute_adm2 P r m w h).scores.getD 2 0 +
          (compute_adm2 P r m w h).scores.getD 4 0 +
          (compute_adm2 P r m w h).scores.getD 6 0 <
          1 / 100 * ((w * h : ℕ) : ℚ) / (1920 * 1080) then 0
      else (compute_adm2 P r m w h).scores.getD 0 0 +
          (compute_adm2 P r m w h).scores.getD 2 0 +
          (compute_adm2 P r m w h).scores.getD 4 0 +
          (compute_adm2 P r m w h).scores.getD 6 0) ∧
    ((compute_adm2 P r m w h).score_den =
      if (compute_adm2 P r m w h).scores.getD 1 0 +
          (compute_adm2 P r m w h).scores.getD 3 0 +
          (compute_adm2 P r m w h).scores.getD 5 0 +
          (compute_adm2 P r m w h).scores.getD 7 0 <
          1 / 100 * ((w * h : ℕ) : ℚ) / (1920 * 1080) then 0
      else (compute_adm2 P r m w h).scores.getD 1 0 +
          (compute_adm2 P r m w h).scores.getD 3 0 +
          (compute_adm2 P r m w h).scores.getD 5 0 +
          (compute_adm2 P r m w h).scores.getD 7 0) ∧
    ((compute_adm2 P r m w h).score =
      if (compute_adm2 P r m w h).score_den = 0 then 1
      else (compute_adm2 P r m w h).score_num / (compute_adm2 P r m w h).score_den) := by
  refine ⟨rfl, rfl, rfl⟩

lemma max_zero_abs (q : ℚ) : max 0 |q| = |q| := max_eq_right (abs_nonneg q)

lemma adm_sum_cube_congr (P : AdmParams) (x y : Img) (w h : ℕ) (b : ℚ)
    (hxy : ∀ i j, |x i j| = |y i j|) :
    adm_sum_cube P x w h b = adm_sum_cube P y w h b := by
  have hs : cube_sum x w h b = cube_sum y w h b := by
    unfold cube_sum
    exact Finset.sum_congr rfl fun i _ =>
      Finset.sum_congr rfl fun j _ => by rw [hxy]
  unfold adm_sum_cube
  rw [hs]

lemma adm_sum_cube_abs (P : AdmParams) (y : Img) (w h : ℕ) (b : ℚ) :
    adm_sum_cube P (fun i j => |y i j|) w h b = adm_sum_cube P y w h b :=
  adm_sum_cube_congr P _ y w h b fun i j => abs_abs (y i j)

lemma angle_cond_self (P : AdmParams) (hc : P.cos_1deg_sq ≤ 1)
    (B : adm_dwt_band_t) (i j : ℤ) : angle_cond P B B i j := by
  simp only [angle_cond]
  constructor
  · nlinarith [mul_self_nonneg (B.band_h i j), mul_self_nonneg (B.band_v i j)]
  · nlinarith [mul_self_nonneg (B.band_h i j * B.band_h i j +
      B.band_v i j * B.band_v i j), hc,
      mul_self_nonneg (B.band_h i j), mul_self_nonneg (B.band_v i j)]

lemma decouple_vals_self (P : AdmParams) (hc : P.cos_1deg_sq ≤ 1)
    (B : adm_dwt_band_t) (i j : ℤ) :
    decouple_vals P B B i j = (B.band_h i j, B.band_v i j, B.band_d i j) := by
  simp only [decouple_vals]
  rw [if_pos (angle_cond_self P hc B i j)]

lemma cm_thresh_of_zero_bands (B : adm_dwt_band_t) (hh : B.band_h = zeroImg)
    (hv : B.band_v = zeroImg) (hd : B.band_d = zeroImg) (w h : ℕ) :
    adm_cm_thresh B w h = zeroImg := by
  funext i j
  simp [adm_cm_thresh, band_angle, hh, hv, hd, zeroImg]

lemma mta_self (P : AdmParams) (hc : P.cos_1deg_sq ≤ 1) (B : adm_dwt_band_t)
    (w2 h2 oh s : ℕ) :
    adm_cm_thresh (adm_csf P (adm_decouple_a P B B w2 h2) oh s) w2 h2 = zeroImg := by
  apply cm_thresh_of_zero_bands <;> funext i j <;>
    simp only [adm_csf, adm_decouple_a] <;>
    rw [decouple_vals_self P hc] <;> simp [zeroImg]

lemma cm_h_self (P : AdmParams) (hc : P.cos_1deg_sq ≤ 1) (B : adm_dwt_band_t)
    (w2 h2 oh s : ℕ) :
    (adm_cm (adm_csf P (adm_decouple_r P B B w2 h2) oh s) zeroImg w2 h2).band_h =
      fun i j => |(adm_csf P B oh s).band_h i j| := by
  funext i j
  simp only [adm_cm, adm_csf, adm_decouple_r, zeroImg]
  rw [decouple_vals_self P hc]
  simp [max_zero_abs]

lemma cm_v_self (P : AdmParams) (hc : P.cos_1deg_sq ≤ 1) (B : adm_dwt_band_t)
    (w2 h2 oh s : ℕ) :
    (adm_cm (adm_csf P (adm_decouple_r P B B w2 h2) oh s) zeroImg w2 h2).band_v =
      fun i j => |(adm_csf P B oh s).band_v i j| := by
  funext i j
  simp only [adm_cm, adm_csf, adm_decouple_r, zeroImg]
  rw [decouple_vals_self P hc]
  simp [max_zero_abs]

lemma cm_d_self (P : AdmParams) (hc : P.cos_1deg_sq ≤ 1) (B : adm_dwt_band_t)
    (w2 h2 oh s : ℕ) :
    (adm_cm (adm_csf P (adm_decouple_r P B B w2 h2) oh s) zeroImg w2 h2).band_d =
      fun i j => |(adm_csf P B oh s).band_d i j| := by
  funext i j
  simp only [adm_cm, adm_csf, adm_decouple_r, zeroImg]
  rw [decouple_vals_self P hc]
  simp [max_zero_abs]

lemma adm_scale_step_self (P : AdmParams) (hc : P.cos_1deg_sq ≤ 1) (x : Img)
    (w h oh s : ℕ) :
    (adm_scale_step P x x w h oh s).num_scale =
      (adm_scale_step P x x w h oh s).den_scale := by
  simp only [adm_scale_step]
  rw [mta_self P hc, cm_h_self P hc, cm_v_self P hc, cm_d_self P hc,
    adm_sum_cube_abs, adm_sum_cube_abs, adm_sum_cube_abs]

lemma adm_scale_step_main_a (P : AdmParams) (y : Img) (w h oh s : ℕ) :
    (adm_scale_step P y y w h oh s).main_a = (adm_scale_step P y y w h oh s).ref_a :=
  rfl

lemma compute_adm2_self_score (P : AdmParams) (hc : P.cos_1deg_sq ≤ 1)
    (x : Img) (w h : ℕ) : (compute_adm2 P x x w h).score = 1 := by
  simp only [compute_adm2, adm_scale_step_main_a]
  simp only [adm_scale_step_self P hc]
  exact floor_ratio_one _ _

/-! ### Claim theorems -/

/-- C1: for matching shaped reference and distorted detail band groups, the
decoupler produces a restored band `r` and an impairment band `a` of the
same shape such that at every pixel and for every orientation (H, V, D),
`r + a` equals the distorted coefficient, exactly by construction (exact in
the rational idealisation of the float arithmetic). -/
theorem adm_decouple_sum (P : AdmParams) (ref main : adm_dwt_band_t)
    (w h : ℕ) (i j : ℤ) :
    (adm_decouple_r P ref main w h).w = (adm_decouple_a P ref main w h).w ∧
    (adm_decouple_r P ref main w h).h = (adm_decouple_a P ref main w h).h ∧
    (adm_decouple_r P ref main w h).band_h i j +
      (adm_decouple_a P ref main w h).band_h i j = main.band_h i j ∧
    (adm_decouple_r P ref main w h).band_v i j +
      (adm_decouple_a P ref main w h).band_v i j = main.band_v i j ∧
    (adm_decouple_r P ref main w h).band_d i j +
      (adm_decouple_a P ref main w h).band_d i j = main.band_d i j := by
  refine ⟨rfl, rfl, ?_, ?_, ?_⟩ <;>
    simp only [adm_decouple_r, adm_decouple_a] <;> ring

/-- C2: the final reduction of `compute_adm2`: `score_num` and `score_den`
are the sums of the per scale numerators and denominators over all 4 scales
(the entries of the diagnostic sequence), with a sum strictly below
`1e-2 * (orig_w * orig_h) / (1920 * 1080)` replaced by exactly zero, and the
reported score equals `score_num / score_den` except that it equals `1.0`
whenever `score_den` is zero. -/
theorem compute_adm2_final_reduction (P : AdmParams) (r m : Img) (w h : ℕ) :
    ((compute_adm2 P r m w h).score_num =
      if (compute_adm2 P r m w h).scores.getD 0 0 +
          (compute_adm2 P r m w h).scores.getD 2 0 +
          (compute_adm2 P r m w h).scores.getD 4 0 +
          (compute_adm2 P r m w h).scores.getD 6 0 <
          1 / 100 * ((w * h : ℕ) : ℚ) / (1920 * 1080) then 0
      else (compute_adm2 P r m w h).scores.getD 0 0 +
          (compute_adm2 P r m w h).scores.getD 2 0 +
          (compute_adm2 P r m w h).scores.getD 4 0 +
          (compute_adm2 P r m w h).scores.getD 6 0) ∧
    ((compute_adm2 P r m w h).score_den =
      if (compute_adm2 P r m w h).scores.getD 1 0 +
          (compute_adm2 P r m w h).scores.getD 3 0 +
          (compute_adm2 P r m w h).scores.getD 5 0 +
          (compute_adm2 P r m w h).scores.getD 7 0 <
          1 / 100 * ((w * h : ℕ) : ℚ) / (1920 * 1080) then 0
      else (compute_adm2 P r m w h).scores.getD 1 0 +
          (compute_adm2 P r m w h).scores.getD 3 0 +
          (compute_adm2 P r m w h).scores.getD 5 0 +
          (compute_adm2 P r m w h).scores.getD 7 0) ∧
    ((compute_adm2 P r m w h).score =
      if (compute_adm2 P r m w h).score_den = 0 then 1
      else (compute_adm2 P r m w h).score_num / (compute_adm2 P r m w h).score_den) := by
  refine ⟨rfl, rfl, rfl⟩

/-- C6: one call of `adm_dwt2` on a `w x h` plane produces sub-bands of the
half resolution shape `((h+1)/2) x ((w+1)/2)`, every source access goes
through the whole sample mirror rule (here shown for the approximation
band), and the mirror rule maps an index to `|idx|`, then to
`2 * dim - |idx| - 1` if that is still out of range. -/
theorem adm_dwt2_shape_mirror (P : AdmParams) (src : Img) (w h dim : ℕ)
    (idx i j : ℤ) :
    ((adm_dwt2 P src w h).w = (w + 1) / 2 ∧
     (adm_dwt2 P src w h).h = (h + 1) / 2) ∧
    ((|idx| < (dim : ℤ) → reflect dim idx = |idx|) ∧
     ((dim : ℤ) ≤ |idx| → reflect dim idx = 2 * (dim : ℤ) - |idx| - 1)) ∧
    ((adm_dwt2 P src w h).band_a i j =
      ∑ fj in Finset.range P.taps_lo.length, P.taps_lo.getD fj 0 *
        ∑ fi in Finset.range P.taps_lo.length, P.taps_lo.getD fi 0 *
          src (reflect h (2 * i - 1 + fi)) (reflect w (2 * j - 1 + fj))) := by
  refine ⟨⟨rfl, rfl⟩, ⟨?_, ?_⟩, rfl⟩
  · intro hlt
    simp only [reflect]
    rw [if_neg (not_le.mpr hlt)]
  · intro hge
    simp only [reflect]
    rw [if_pos hge]

/-- Witness for C6: the mirror rule evaluated at a concrete in range and a
concrete out of range index, through the theorem itself. -/
theorem adm_dwt2_shape_mirror_wit :
    reflect 4 (-3) = |(-3 : ℤ)| ∧
    reflect 4 6 = 2 * ((4 : ℕ) : ℤ) - |(6 : ℤ)| - 1 :=
  ⟨(adm_dwt2_shape_mirror paramsA zeroImg 1 1 4 (-3) 0 0).2.1.1 (by decide),
   (adm_dwt2_shape_mirror paramsA zeroImg 1 1 4 6 0 0).2.1.2 (by decide)⟩

/-- C7: the contrast masking threshold is, per pixel, the sum over the three
orientations of the 3x3 filter (1/15 center, 1/30 elsewhere) applied to the
absolute value of the band with mirror reflected indices, the masked output
per orientation is `max 0 (|weighted restored| - threshold)`, and hence the
masking output is never negative. -/
theorem adm_cm_mask (B src : adm_dwt_band_t) (thr : Img) (w h : ℕ) (i j : ℤ) :
    (adm_cm_thresh B w h i j =
      ∑ theta in Finset.range 3, ∑ fi in Finset.range 3, ∑ fj in Finset.range 3,
        (if fi = 1 ∧ fj = 1 then (1 : ℚ) / 15 else 1 / 30) *
          |band_angle B theta (reflect h (i - 1 + fi)) (reflect w (j - 1 + fj))|) ∧
    ((adm_cm src thr w h).band_h i j = max 0 (|src.band_h i j| - thr i j) ∧
     (adm_cm src thr w h).band_v i j = max 0 (|src.band_v i j| - thr i j) ∧
     (adm_cm src thr w h).band_d i j = max 0 (|src.band_d i j| - thr i j)) ∧
    (0 ≤ (adm_cm src thr w h).band_h i j ∧
     0 ≤ (adm_cm src thr w h).band_v i j ∧
     0 ≤ (adm_cm src thr w h).band_d i j) := by
  refine ⟨rfl, ⟨rfl, rfl, rfl⟩, ?_, ?_, ?_⟩ <;> exact le_max_left 0 _

/-- C8: `adm_sum_cube` returns the cube root of the sum of cubed absolute
values over rows `[top, bottom)` and columns `[left, right)` with
`left = trunc(w * b - 0.5)`, `top = trunc(h * b - 0.5)`, `right = w - left`,
`bottom = h - top`, plus the cube root of
`(region_height * region_width) / 32`; the additive stabilizer does not
depend on the pixel content. -/
theorem adm_sum_cube_pool (P : AdmParams) (x y : Img) (w h : ℕ) (b : ℚ) :
    (adm_sum_cube P x w h b =
      P.cbrt (∑ i in Finset.Ico (truncQ ((h : ℚ) * b - 1 / 2))
          ((h : ℤ) - truncQ ((h : ℚ) * b - 1 / 2)),
        ∑ j in Finset.Ico (truncQ ((w : ℚ) * b - 1 / 2))
          ((w : ℤ) - truncQ ((w : ℚ) * b - 1 / 2)), |x i j| ^ 3) +
      P.cbrt (((((h : ℤ) - truncQ ((h : ℚ) * b - 1 / 2) - truncQ ((h : ℚ) * b - 1 / 2)) *
        ((w : ℤ) - truncQ ((w : ℚ) * b - 1 / 2) - truncQ ((w : ℚ) * b - 1 / 2)) : ℤ) : ℚ) / 32)) ∧
    (adm_sum_cube P x w h b - P.cbrt (cube_sum x w h b) =
      adm_sum_cube P y w h b - P.cbrt (cube_sum y w h b)) := by
  constructor
  · rfl
  · simp [adm_sum_cube]

/-- Counterexample for C9: at a concrete band and parameter record, passing
two different original frame heights to `adm_csf` yields the same output,
so the CSF weighted output does not depend on the `orig_h` argument. -/
theorem adm_csf_orig_h_cex :
    (adm_csf paramsA bandOne 1080 0).band_h 3 3 =
      (adm_csf paramsA bandOne 2160 0).band_h 3 3 := rfl

/-- C9 (amended): `adm_csf` accepts an `orig_h` argument but its output is
independent of it; the quantization step formula uses the fixed constant
`REF_DISPLAY_HEIGHT` instead of the frame height. -/
theorem adm_csf_orig_h_independent (P : AdmParams) (src : adm_dwt_band_t)
    (oh1 oh2 s : ℕ) : adm_csf P src oh1 s = adm_csf P src oh2 s := rfl

/-- C10: the 8-bit and 10-bit sample conversions feeding `compute_adm2`
write each output float as the plain numeric cast of the corresponding
input sample; no range or mid level offset is subtracted. -/
theorem offset_plain_cast (refS mainS : ℤ → ℤ → ℕ) (i j : ℤ) :
    ((offset_8bit refS mainS).1 i j = (refS i j : ℚ) ∧
     (offset_8bit refS mainS).2 i j = (mainS i j : ℚ)) ∧
    ((offset_10bit refS mainS).1 i j = (refS i j : ℚ) ∧
     (offset_10bit refS mainS).2 i j = (mainS i j : ℚ)) :=
  ⟨⟨rfl, rfl⟩, rfl, rfl⟩

lemma ratCbrt_zero : ratCbrt 0 = 0 := by
  rw [ratCbrt, if_neg (by norm_num)]
  have hnum : ((0 : ℚ)).num = 0 := by norm_num
  have hden : ((0 : ℚ)).den = 1 := by norm_num
  rw [hnum, hden]
  have hc : natCbrt ((0 : ℤ).toNat * 1 * 1) = 0 := by decide
  rw [hc]
  norm_num

lemma ratCbrt_inv32 : ratCbrt (1 / 32) = 5 / 16 := by
  rw [ratCbrt, if_neg (by norm_num)]
  have hnum : ((1 : ℚ) / 32).num = 1 := by norm_num
  have hden : ((1 : ℚ) / 32).den = 32 := by norm_num
  rw [hnum, hden]
  have hc : natCbrt ((1 : ℤ).toNat * 32 * 32) = 10 := by decide
  rw [hc]
  norm_num

lemma asc_A1 : adm_sum_cube paramsA zeroImg 1 1 paramsA.border = 5 / 16 := by
  have hlo : region_lo 1 paramsA.border = 0 := by
    rw [show paramsA.border = 1 / 10 from rfl, region_lo, truncQ, if_pos (by norm_num)]
    norm_num
  have hhi : region_hi 1 paramsA.border = 1 := by
    rw [region_hi, hlo]
    norm_num
  have hcb : paramsA.cbrt = ratCbrt := rfl
  rw [adm_sum_cube_zero, hcb, hlo, hhi, ratCbrt_zero]
  norm_num [ratCbrt_inv32]

lemma zero_den_sum_A : zero_den_sum paramsA 2 2 = 15 / 4 := by
  simp only [zero_den_sum, zero_pool]
  norm_num [asc_A1]


/-- Counterexample for C3: for the all zero reference plane (and the all
zero distorted plane) at a 2 x 2 resolution, with the abstract constants
instantiated concretely, `score_den` equals 15/4, which is far above the
noise floor `1e-2 * 4 / (1920 * 1080)`: the pooling stabilizer terms keep
the denominator positive, so an all zero reference does not drive it to or
below the floor. -/
theorem compute_adm2_zero_ref_floor_cex :
    ¬ ((compute_adm2 paramsA zeroImg zeroImg 2 2).score_den ≤
        1 / 100 * ((2 * 2 : ℕ) : ℚ) / (1920 * 1080) ∧
       (compute_adm2 paramsA zeroImg zeroImg 2 2).score = 1) := by
  intro hcl
  have hden : (compute_adm2 paramsA zeroImg zeroImg 2 2).score_den = 15 / 4 := by
    rw [compute_adm2_zero]
    show (if zero_den_sum paramsA 2 2 <
        1 / 100 * ((2 * 2 : ℕ) : ℚ) / (1920 * 1080) then (0 : ℚ)
      else zero_den_sum paramsA 2 2) = 15 / 4
    rw [zero_den_sum_A, if_neg (by norm_num)]
  rw [hden] at hcl
  have := hcl.1
  norm_num at this

/-- C3 (amended): an all zero reference plane does not in general drive
`score_den` to or below the noise floor (see the counterexample, where the
stabilizer terms keep it at 15/4); what does hold is that when the
distorted plane is all zero as well, the numerator and denominator
accumulators coincide and the final score equals exactly 1.0, either
through the `den == 0` fallback or as the ratio of two equal values. -/
theorem compute_adm2_zero_planes_score_one (P : AdmParams) (w h : ℕ) :
    (compute_adm2 P zeroImg zeroImg w h).score = 1 := by
  rw [compute_adm2_zero]


/-- C5: when the distorted input equals the reference input exactly (and
the angular constant satisfies `cos^2(1 deg) <= 1`, true of the real
constant), the angular test passes at every pixel, the restored band equals
the distorted band and the impairment band is identically zero, the
contrast masking threshold computed from the impairment is identically
zero, and the final score of `compute_adm2` equals exactly 1 at every
resolution. -/
theorem adm_identical_inputs (P : AdmParams) (hc : P.cos_1deg_sq ≤ 1) :
    (∀ (B : adm_dwt_band_t) (i j : ℤ), angle_cond P B B i j) ∧
    (∀ (B : adm_dwt_band_t) (w h : ℕ) (i j : ℤ),
      (adm_decouple_r P B B w h).band_h i j = B.band_h i j ∧
      (adm_decouple_r P B B w h).band_v i j = B.band_v i j ∧
      (adm_decouple_r P B B w h).band_d i j = B.band_d i j ∧
      (adm_decouple_a P B B w h).band_h i j = 0 ∧
      (adm_decouple_a P B B w h).band_v i j = 0 ∧
      (adm_decouple_a P B B w h).band_d i j = 0) ∧
    (∀ (B : adm_dwt_band_t) (w h oh s : ℕ) (i j : ℤ),
      adm_cm_thresh (adm_csf P (adm_decouple_a P B B w h) oh s) w h i j = 0) ∧
    (∀ (x : Img) (w h : ℕ), (compute_adm2 P x x w h).score = 1) := by
  refine ⟨fun B i j => angle_cond_self P hc B i j, ?_, ?_,
    fun x w h => compute_adm2_self_score P hc x w h⟩
  · intro B w h i j
    refine ⟨?_, ?_, ?_, ?_, ?_, ?_⟩ <;>
      simp only [adm_decouple_r, adm_decouple_a] <;>
      rw [decouple_vals_self P hc] <;> simp
  · intro B w h oh s i j
    rw [mta_self P hc]
    rfl

/-- Witness for C5: at the concrete parameter record (whose angular
constant 9994/10000 is at most 1) and the constant one plane, the score is
exactly 1. -/
theorem adm_identical_inputs_wit :
    (compute_adm2 paramsA oneImg oneImg 3 3).score = 1 :=
  (adm_identical_inputs paramsA (by norm_num [paramsA])).2.2.2 oneImg 3 3

lemma region_lo_nonneg (dim : ℕ) (b : ℚ) (hb0 : 0 ≤ b) : 0 ≤ region_lo dim b := by
  have hd : (0 : ℚ) ≤ (dim : ℚ) * b := mul_nonneg (Nat.cast_nonneg dim) hb0
  rw [region_lo, truncQ]
  split_ifs with hlt
  · have h2 : (-1 : ℤ) < ⌈(dim : ℚ) * b - 1 / 2⌉ := by
      rw [Int.lt_ceil]
      push_cast
      linarith
    omega
  · exact Int.floor_nonneg.mpr (not_lt.mp hlt)

lemma region_lo_le_mul (dim : ℕ) (b : ℚ) (hb0 : 0 ≤ b) :
    ((region_lo dim b : ℤ) : ℚ) ≤ (dim : ℚ) * b := by
  have hd : (0 : ℚ) ≤ (dim : ℚ) * b := mul_nonneg (Nat.cast_nonneg dim) hb0
  rw [region_lo, truncQ]
  split_ifs with hlt
  · have h2 : ⌈(dim : ℚ) * b - 1 / 2⌉ ≤ (0 : ℤ) :=
      Int.ceil_le.mpr (by push_cast; linarith)
    have h3 : ((⌈(dim : ℚ) * b - 1 / 2⌉ : ℤ) : ℚ) ≤ 0 := by exact_mod_cast h2
    linarith
  · have h2 : ((⌊(dim : ℚ) * b - 1 / 2⌋ : ℤ) : ℚ) ≤ (dim : ℚ) * b - 1 / 2 :=
      Int.floor_le _
    linarith

lemma width_bounds (dim : ℕ) (b : ℚ) (hb0 : 0 ≤ b) (hb1 : b ≤ 1 / 4) :
    (dim : ℚ) / 2 ≤ ((region_hi dim b : ℤ) : ℚ) - ((region_lo dim b : ℤ) : ℚ) ∧
    ((region_hi dim b : ℤ) : ℚ) - ((region_lo dim b : ℤ) : ℚ) ≤ (dim : ℚ) := by
  have h1 := region_lo_le_mul dim b hb0
  have h2 := region_lo_nonneg dim b hb0
  have h2q : (0 : ℚ) ≤ ((region_lo dim b : ℤ) : ℚ) := by exact_mod_cast h2
  have h3 : (dim : ℚ) * b ≤ (dim : ℚ) * (1 / 4) :=
    mul_le_mul_of_nonneg_left hb1 (Nat.cast_nonneg dim)
  constructor <;> (simp only [region_hi]; push_cast; linarith)

lemma stabQ_lower (w h : ℕ) (b : ℚ) (hb0 : 0 ≤ b) (hb1 : b ≤ 1 / 4) :
    (w : ℚ) * (h : ℚ) / 128 ≤ stabQ w h b := by
  obtain ⟨hwl, hwu⟩ := width_bounds w b hb0 hb1
  obtain ⟨hhl, hhu⟩ := width_bounds h b hb0 hb1
  have hw2 : (0 : ℚ) ≤ (w : ℚ) / 2 := by positivity
  have hh2 : (0 : ℚ) ≤ (h : ℚ) / 2 := by positivity
  have hWh : (0 : ℚ) ≤ ((region_hi h b : ℤ) : ℚ) - ((region_lo h b : ℤ) : ℚ) :=
    le_trans hh2 hhl
  have hmul := mul_le_mul hhl hwl hw2 hWh
  simp only [stabQ]
  push_cast
  nlinarith [hmul]

lemma stabQ_upper (w h : ℕ) (b : ℚ) (hb0 : 0 ≤ b) (hb1 : b ≤ 1 / 4) :
    stabQ w h b ≤ (w : ℚ) * (h : ℚ) / 32 := by
  obtain ⟨hwl, hwu⟩ := width_bounds w b hb0 hb1
  obtain ⟨hhl, hhu⟩ := width_bounds h b hb0 hb1
  have hWw : (0 : ℚ) ≤ ((region_hi w b : ℤ) : ℚ) - ((region_lo w b : ℤ) : ℚ) :=
    le_trans (by positivity) hwl
  have hmul := mul_le_mul hhu hwu hWw (Nat.cast_nonneg h)
  simp only [stabQ]
  push_cast
  nlinarith [hmul]

lemma stabQ_nonneg (w h : ℕ) (b : ℚ) (hb0 : 0 ≤ b) (hb1 : b ≤ 1 / 4) :
    0 ≤ stabQ w h b :=
  le_trans (by positivity) (stabQ_lower w h b hb0 hb1)

lemma cube_sum_nonneg (x : Img) (w h : ℕ) (b : ℚ) : 0 ≤ cube_sum x w h b := by
  simp only [cube_sum]
  refine Finset.sum_nonneg fun i _ => Finset.sum_nonneg fun j _ => ?_
  positivity

lemma adm_sum_cube_split (P : AdmParams) (x : Img) (w h : ℕ) (b : ℚ) :
    adm_sum_cube P x w h b = P.cbrt (cube_sum x w h b) + P.cbrt (stabQ w h b) := rfl

lemma adm_sum_cube_ge_stab (P : AdmParams) (x : Img) (w h : ℕ) (b : ℚ)
    (hcb_nn : ∀ y : ℚ, 0 ≤ y → 0 ≤ P.cbrt y) :
    P.cbrt (stabQ w h b) ≤ adm_sum_cube P x w h b := by
  have h1 : 0 ≤ P.cbrt (cube_sum x w h b) := hcb_nn _ (cube_sum_nonneg x w h b)
  rw [adm_sum_cube_split]
  linarith

lemma adm_sum_cube_nonneg (P : AdmParams) (x : Img) (w h : ℕ) (b : ℚ)
    (hb0 : 0 ≤ b) (hb1 : b ≤ 1 / 4)
    (hcb_nn : ∀ y : ℚ, 0 ≤ y → 0 ≤ P.cbrt y) :
    0 ≤ adm_sum_cube P x w h b := by
  have h1 : 0 ≤ P.cbrt (cube_sum x w h b) := hcb_nn _ (cube_sum_nonneg x w h b)
  have h2 : 0 ≤ P.cbrt (stabQ w h b) := hcb_nn _ (stabQ_nonneg w h b hb0 hb1)
  rw [adm_sum_cube_split]
  linarith

lemma three_le {c a1 a2 a3 : ℚ} (h1 : c ≤ a1) (h2 : c ≤ a2) (h3 : c ≤ a3) :
    3 * c ≤ a1 + a2 + a3 := by linarith

lemma adm_scale_step_ge_stab (P : AdmParams) (r m : Img) (w h oh s : ℕ)
    (hcb_nn : ∀ y : ℚ, 0 ≤ y → 0 ≤ P.cbrt y) :
    3 * P.cbrt (stabQ ((w + 1) / 2) ((h + 1) / 2) P.border) ≤
      (adm_scale_step P r m w h oh s).num_scale ∧
    3 * P.cbrt (stabQ ((w + 1) / 2) ((h + 1) / 2) P.border) ≤
      (adm_scale_step P r m w h oh s).den_scale := by
  simp only [adm_scale_step]
  exact ⟨three_le (adm_sum_cube_ge_stab P _ _ _ _ hcb_nn)
      (adm_sum_cube_ge_stab P _ _ _ _ hcb_nn)
      (adm_sum_cube_ge_stab P _ _ _ _ hcb_nn),
    three_le (adm_sum_cube_ge_stab P _ _ _ _ hcb_nn)
      (adm_sum_cube_ge_stab P _ _ _ _ hcb_nn)
      (adm_sum_cube_ge_stab P _ _ _ _ hcb_nn)⟩

lemma adm_scale_step_nonneg (P : AdmParams) (r m : Img) (w h oh s : ℕ)
    (hb0 : 0 ≤ P.border) (hb1 : P.border ≤ 1 / 4)
    (hcb_nn : ∀ y : ℚ, 0 ≤ y → 0 ≤ P.cbrt y) :
    0 ≤ (adm_scale_step P r m w h oh s).num_scale ∧
    0 ≤ (adm_scale_step P r m w h oh s).den_scale := by
  simp only [adm_scale_step]
  constructor <;>
    exact add_nonneg (add_nonneg (adm_sum_cube_nonneg P _ _ _ _ hb0 hb1 hcb_nn)
        (adm_sum_cube_nonneg P _ _ _ _ hb0 hb1 hcb_nn))
      (adm_sum_cube_nonneg P _ _ _ _ hb0 hb1 hcb_nn)

lemma limit_le_step_stab (P : AdmParams) (w h : ℕ)
    (hb0 : 0 ≤ P.border) (hb1 : P.border ≤ 1 / 4)
    (hcb_lin : ∀ x : ℚ, 0 ≤ x → x ≤ 67108864 → x ≤ 1000000 * P.cbrt x)
    (hwh : w * h ≤ 2 ^ 31) :
    1 / 100 * ((w * h : ℕ) : ℚ) / (1920 * 1080) ≤
      3 * P.cbrt (stabQ ((w + 1) / 2) ((h + 1) / 2) P.border) := by
  have hwc1 : (w : ℚ) / 2 ≤ (((w + 1) / 2 : ℕ) : ℚ) := by
    have hnat : w ≤ 2 * ((w + 1) / 2) := by omega
    have hq := (Nat.cast_le (α := ℚ)).mpr hnat
    push_cast at hq
    linarith
  have hwc2 : (((w + 1) / 2 : ℕ) : ℚ) ≤ (w : ℚ) := by
    exact_mod_cast (show (w + 1) / 2 ≤ w by omega)
  have hhc1 : (h : ℚ) / 2 ≤ (((h + 1) / 2 : ℕ) : ℚ) := by
    have hnat : h ≤ 2 * ((h + 1) / 2) := by omega
    have hq := (Nat.cast_le (α := ℚ)).mpr hnat
    push_cast at hq
    linarith
  have hhc2 : (((h + 1) / 2 : ℕ) : ℚ) ≤ (h : ℚ) := by
    exact_mod_cast (show (h + 1) / 2 ≤ h by omega)
  have hsl := stabQ_lower ((w + 1) / 2) ((h + 1) / 2) P.border hb0 hb1
  have hsu := stabQ_upper ((w + 1) / 2) ((h + 1) / 2) P.border hb0 hb1
  have hprod_lo : (w : ℚ) * (h : ℚ) / 4 ≤
      (((w + 1) / 2 : ℕ) : ℚ) * (((h + 1) / 2 : ℕ) : ℚ) := by
    have hmm := mul_le_mul hwc1 hhc1 (by positivity) (le_trans (by positivity) hwc1)
    nlinarith [hmm]
  have hprod_hi : (((w + 1) / 2 : ℕ) : ℚ) * (((h + 1) / 2 : ℕ) : ℚ) ≤
      (w : ℚ) * (h : ℚ) :=
    mul_le_mul hwc2 hhc2 (Nat.cast_nonneg _) (Nat.cast_nonneg _)
  have hwh_q : (w : ℚ) * (h : ℚ) ≤ 2147483648 := by
    have hq := (Nat.cast_le (α := ℚ)).mpr hwh
    push_cast at hq
    linarith
  have hst_hi : stabQ ((w + 1) / 2) ((h + 1) / 2) P.border ≤ 67108864 := by
    linarith
  have hst_nn : 0 ≤ stabQ ((w + 1) / 2) ((h + 1) / 2) P.border :=
    stabQ_nonneg _ _ P.border hb0 hb1
  have hlin := hcb_lin _ hst_nn hst_hi
  have hwh_nn : (0 : ℚ) ≤ (w : ℚ) * (h : ℚ) := by positivity
  have hcast : ((w * h : ℕ) : ℚ) = (w : ℚ) * (h : ℚ) := by push_cast; ring
  rw [hcast]
  linarith

/-- C4: for every input (any parameter record whose border factor is a
fixed fraction at most 1/4 and whose cube root is nonnegative and satisfies
the linear growth bound of the real cube root on the reachable stabilizer
range, and any frame whose pixel count is int representable), the outputs
of `compute_adm2` satisfy `score_num = scores[0]+scores[2]+scores[4]+scores[6]`
and `score_den = scores[1]+scores[3]+scores[5]+scores[7]`: the stabilizer of
the first scale alone already reaches the noise floor, so the floor never
zeroes either sum and the returned sums equal the sums of the per scale
diagnostic entries. -/
theorem compute_adm2_scores_sum (P : AdmParams) (r m : Img) (w h : ℕ)
    (hb0 : 0 ≤ P.border) (hb1 : P.border ≤ 1 / 4)
    (hcb_nn : ∀ x : ℚ, 0 ≤ x → 0 ≤ P.cbrt x)
    (hcb_lin : ∀ x : ℚ, 0 ≤ x → x ≤ 67108864 → x ≤ 1000000 * P.cbrt x)
    (hwh : w * h ≤ 2 ^ 31) :
    ((compute_adm2 P r m w h).score_num =
      (compute_adm2 P r m w h).scores.getD 0 0 +
      (compute_adm2 P r m w h).scores.getD 2 0 +
      (compute_adm2 P r m w h).scores.getD 4 0 +
      (compute_adm2 P r m w h).scores.getD 6 0) ∧
    ((compute_adm2 P r m w h).score_den =
      (compute_adm2 P r m w h).scores.getD 1 0 +
      (compute_adm2 P r m w h).scores.getD 3 0 +
      (compute_adm2 P r m w h).scores.getD 5 0 +
      (compute_adm2 P r m w h).scores.getD 7 0) := by
  obtain ⟨hn, hd, -⟩ := compute_adm2_reduction P r m w h
  have hL := limit_le_step_stab P w h hb0 hb1 hcb_lin hwh
  have hg0 : 3 * P.cbrt (stabQ ((w + 1) / 2) ((h + 1) / 2) P.border) ≤
      (compute_adm2 P r m w h).scores.getD 0 0 :=
    (adm_scale_step_ge_stab P r m w h h 0 hcb_nn).1
  have hg1 : 3 * P.cbrt (stabQ ((w + 1) / 2) ((h + 1) / 2) P.border) ≤
      (compute_adm2 P r m w h).scores.getD 1 0 :=
    (adm_scale_step_ge_stab P r m w h h 0 hcb_nn).2
  have hg2 : 0 ≤ (compute_adm2 P r m w h).scores.getD 2 0 :=
    (adm_scale_step_nonneg P _ _ _ _ _ _ hb0 hb1 hcb_nn).1
  have hg3 : 0 ≤ (compute_adm2 P r m w h).scores.getD 3 0 :=
    (adm_scale_step_nonneg P _ _ _ _ _ _ hb0 hb1 hcb_nn).2
  have hg4 : 0 ≤ (compute_adm2 P r m w h).scores.getD 4 0 :=
    (adm_scale_step_nonneg P _ _ _ _ _ _ hb0 hb1 hcb_nn).1
  have hg5 : 0 ≤ (compute_adm2 P r m w h).scores.getD 5 0 :=
    (adm_scale_step_nonneg P _ _ _ _ _ _ hb0 hb1 hcb_nn).2
  have hg6 : 0 ≤ (compute_adm2 P r m w h).scores.getD 6 0 :=
    (adm_scale_step_nonneg P _ _ _ _ _ _ hb0 hb1 hcb_nn).1
  have hg7 : 0 ≤ (compute_adm2 P r m w h).scores.getD 7 0 :=
    (adm_scale_step_nonneg P _ _ _ _ _ _ hb0 hb1 hcb_nn).2
  constructor
  · rw [hn, if_neg (not_lt.mpr (by linarith))]
  · rw [hd, if_neg (not_lt.mpr (by linarith))]

/-- Witness for C4: at the concrete record `paramsC` (border 1/10, affine
cube root stand-in satisfying the growth side conditions) and a 2 x 2
frame, the additivity equation holds through the theorem. -/
theorem compute_adm2_scores_sum_wit :
    (compute_adm2 paramsC zeroImg zeroImg 2 2).score_num =
      (compute_adm2 paramsC zeroImg zeroImg 2 2).scores.getD 0 0 +
      (compute_adm2 paramsC zeroImg zeroImg 2 2).scores.getD 2 0 +
      (compute_adm2 paramsC zeroImg zeroImg 2 2).scores.getD 4 0 +
      (compute_adm2 paramsC zeroImg zeroImg 2 2).scores.getD 6 0 :=
  (compute_adm2_scores_sum paramsC zeroImg zeroImg 2 2
    (by norm_num [show paramsC.border = 1 / 10 from rfl])
    (by norm_num [show paramsC.border = 1 / 10 from rfl])
    (fun x hx => by
      show (0 : ℚ) ≤ if x < 0 then 0 else x + 1
      split_ifs <;> linarith)
    (fun x hx hle => by
      show x ≤ 1000000 * if x < 0 then (0 : ℚ) else x + 1
      rw [if_neg (not_lt.mpr hx)]
      linarith)
    (by norm_num)).1
